import Mathlib

/-!
Verification of the `rain` CLI (raindrop-cli) request-orchestration engine.

The definitions below are a shallow embedding of `src/cli.ts`.  CLI text is
modelled as `List Char` (called `Str`) so that every operation is executable
and kernel-decidable; JavaScript string primitives (`trim`, `split`,
`startsWith`, `slice(1)`, `includes`, `toLowerCase`) are embedded as
character-list functions with the same semantics on the inputs the CLI
handles.  Network effects are embedded as explicit request traces: a handler
is a function from its oracle inputs (token sources, upstream responses) to
the list of requests it issues plus its result.
-/

namespace Rain

/-- CLI text is modelled as a list of characters. -/
abbrev Str := List Char

/-- Whitespace recognised by the embedded trim (the JS `trim` whitespace
classes that occur in CLI input). -/
def isJsSpace (c : Char) : Bool :=
  c = ' ' ∨ c = '\t' ∨ c = '\n' ∨ c = '\r'

/-- Embedding of JS `String.prototype.trim`: drop whitespace from both ends. -/
def strTrim (s : Str) : Str :=
  ((s.dropWhile isJsSpace).reverse.dropWhile isJsSpace).reverse

/-- Embedding of JS `String.prototype.split` with a single-character
separator: `"".split(sep)` is `[""]`, and separators delimit fields. -/
def splitOnChar (sep : Char) : Str → List Str
  | [] => [[]]
  | c :: rest =>
    if c = sep then [] :: splitOnChar sep rest
    else
      match splitOnChar sep rest with
      | [] => [[c]]
      | g :: gs => (c :: g) :: gs

/-- Embedding of JS `startsWith` for a one-character needle. -/
def startsWithChar (c : Char) : Str → Bool
  | [] => false
  | d :: _ => d = c

/-- Embedding of JS `String.prototype.toLowerCase` (per-character). -/
def strToLower (s : Str) : Str := s.map Char.toLower

/-- `parseTags` from `cli.ts`: split on commas, trim each token, drop empty
tokens. -/
def parseTags (value : Str) : List Str :=
  ((splitOnChar ',' value).map strTrim).filter (fun t => t.length > 0)

/-- Error result carried by `CliError` in `cli.ts`: the error code string and
the process exit code. -/
structure CliErr where
  code : String
  exit : Nat
deriving DecidableEq

/-- `fail("AUTH_MISSING", _, 3)` in `requireToken`. -/
def authMissingErr : CliErr := { code := "AUTH_MISSING", exit := 3 }

/-- `fail("AUTH_INVALID", _, 3)` in `mapHttpError`. -/
def authInvalidErr : CliErr := { code := "AUTH_INVALID", exit := 3 }

/-- `failInvalid` = `fail("INVALID_ARGS", _, 2)`. -/
def invalidArgsErr : CliErr := { code := "INVALID_ARGS", exit := 2 }

/-- `failNotFound` = `fail("NOT_FOUND", _, 1)`. -/
def notFoundErr : CliErr := { code := "NOT_FOUND", exit := 1 }

/-- `fail("RATE_LIMITED", _, 4)` in `mapHttpError`. -/
def rateLimitedErr : CliErr := { code := "RATE_LIMITED", exit := 4 }

/-- `fail("API_ERROR", _, 5)` in `mapHttpError`. -/
def apiErr : CliErr := { code := "API_ERROR", exit := 5 }

/-- `fail("NETWORK_ERROR", _, 5)` in `requestJson`. -/
def networkErr : CliErr := { code := "NETWORK_ERROR", exit := 5 }

/-- Outcome of the underlying `fetch` call in `requestJson`: either the
transport threw (DNS / connection / timeout failure), or an HTTP response
with a status code arrived. -/
inductive FetchOutcome where
  | transportFail
  | response (status : Nat)
deriving DecidableEq

/-- `mapHttpError` from `cli.ts`, restricted to `HttpError` payloads: the
status-code priority mapping 401/403, then 404, then 429, then any other
status. -/
def mapHttpStatus (status : Nat) : CliErr :=
  if status = 401 ∨ status = 403 then authInvalidErr
  else if status = 404 then notFoundErr
  else if status = 429 then rateLimitedErr
  else apiErr

/-- `requestJson` composed with `mapHttpError`: a transport failure becomes
`NETWORK_ERROR` (a `CliError` passes through `mapHttpError` unchanged); a
response with `response.ok` (status 200..299) succeeds; any other status is
thrown as `HttpError` and classified by `mapHttpStatus`. -/
def requestOutcome (o : FetchOutcome) : Except CliErr Unit :=
  match o with
  | .transportFail => .error networkErr
  | .response status =>
    if 200 ≤ status ∧ status < 300 then .ok ()
    else .error (mapHttpStatus status)

/-- `readTokenFromFile` from `cli.ts`: `none` models a missing HOME or a
missing token file; file contents are trimmed and returned only when
non-empty. -/
def readTokenFromFile (file : Option Str) : Option Str :=
  match file with
  | none => none
  | some contents =>
    let t := strTrim contents
    if t.length > 0 then some t else none

/-- `requireToken` from `cli.ts`: the trimmed environment token wins when
non-empty (JS truthiness of a string is non-emptiness), otherwise the config
file token, otherwise `AUTH_MISSING` with exit 3. -/
def requireToken (env file : Option Str) : Except CliErr Str :=
  match env with
  | some e =>
    let t := strTrim e
    if t ≠ [] then .ok t
    else
      match readTokenFromFile file with
      | some ft => .ok ft
      | none => .error authMissingErr
  | none =>
    match readTokenFromFile file with
    | some ft => .ok ft
    | none => .error authMissingErr

/-- HTTP method of an outbound request. -/
inductive Method where
  | get
  | post
  | put
  | delete
deriving DecidableEq

/-- Parsed URL structure (the fields of the WHATWG `URL` object that
`validateUrl` / `normalizeUrl` read and write). The scheme is stored without
the trailing colon; `query` is the ordered `searchParams` entry list;
`fragment` is the `hash` without bookkeeping (empty = no fragment). -/
structure UrlParts where
  scheme : Str
  host : Str
  path : Str
  query : List (Str × Str)
  fragment : Str
deriving DecidableEq

/-- The API endpoints touched by the embedded handlers. -/
inductive Endpoint where
  | raindrop (id : Nat)
  | raindropMulti
  | raindrops
  | searchEp
  | existsUrl
deriving DecidableEq

/-- An outbound request as observed at the transport boundary: method,
endpoint, whether the `permanent=true` query flag is set, an optional
`tags` JSON body, and an optional `url` query parameter. -/
structure Request where
  method : Method
  endpoint : Endpoint
  permanentQuery : Bool
  tagsBody : Option (List Str)
  urlQuery : Option UrlParts
deriving DecidableEq

/-- Result of running a handler: its final result and the ordered trace of
requests it issued. -/
structure Outcome (α : Type) where
  result : Except CliErr α
  requests : List Request

/-- Every authenticated handler in `cli.ts` calls `requireToken()` before its
first `requestJson` call; a thrown `AUTH_MISSING` therefore aborts the
handler with an empty request trace.  `withToken` is that shared shape. -/
def withToken {α : Type} (env file : Option Str) (k : Str → Outcome α) : Outcome α :=
  match requireToken env file with
  | .ok t => k t
  | .error e => { result := .error e, requests := [] }

/-- `cmdRm` from `cli.ts`: parse the id, resolve the token, then issue a
single DELETE of `/raindrop/{id}`, with `permanent=true` in the query when
the `--permanent` flag is set. -/
def cmdRm (env file : Option Str) (id : Nat) (permanent : Bool) : Outcome Unit :=
  withToken env file fun _ =>
    { result := .ok ()
      requests := [{ method := .delete, endpoint := .raindrop id,
                     permanentQuery := permanent, tagsBody := none, urlQuery := none }] }

/-- The success-path tail of `cmdExists` for a single URL positional: the
envelope `ok` flag, the printed data (the found id or `null`) and the process
exit code, as a function of whether the upstream lookup reported a numeric
found id. -/
def existsEnvelope (found : Option Nat) : (Bool × Option Nat) × Nat :=
  match found with
  | some id => ((true, some id), 0)
  | none => ((true, none), 1)

/-- The three tag-expression modes produced by `parseTagOps`. -/
inductive TagMode where
  | replace
  | ops
  | direct
deriving DecidableEq

/-- Result of `parseTagOps`: mode, additions (`tags`) and removals. -/
structure TagOps where
  mode : TagMode
  tags : List Str
  remove : List Str
deriving DecidableEq

/-- Loop body of `parseTagOps` over the comma-separated tokens; the
accumulator is `(add, remove, hasOps)`.  A leading `+` adds the rest of the
token and sets `hasOps`; a leading `-` removes it and sets `hasOps`; an
unsigned token is added as-is. -/
def tagOpsStep (acc : List Str × List Str × Bool) (token : Str) : List Str × List Str × Bool :=
  if startsWithChar '+' token then (acc.1 ++ [token.drop 1], acc.2.1, true)
  else if startsWithChar '-' token then (acc.1, acc.2.1 ++ [token.drop 1], true)
  else (acc.1 ++ [token], acc.2.1, acc.2.2)

/-- `parseTagOps` from `cli.ts`: a leading `=` selects replace mode over the
remainder; otherwise the signed-token loop runs and the mode is `ops` when
any signed token occurred, else `direct`. -/
def parseTagOps (raw : Str) : TagOps :=
  if startsWithChar '=' raw then
    { mode := .replace, tags := parseTags (raw.drop 1), remove := [] }
  else
    let folded := (parseTags raw).foldl tagOpsStep ([], [], false)
    { mode := if folded.2.2 then .ops else .direct, tags := folded.1, remove := folded.2.1 }

/-- The `for` loop in `cmdUpdate`'s ops branch: push each addition onto
`next` unless it is already present. -/
def addMissingTags (next : List Str) (tags : List Str) : List Str :=
  tags.foldl (fun acc tag => if tag ∈ acc then acc else acc ++ [tag]) next

/-- The written tag list of `cmdUpdate`'s ops branch: filter the removals out
of the existing tags, then append the additions that are not yet present. -/
def updateNextTags (baseTags : List Str) (tagOps : TagOps) : List Str :=
  addMissingTags (baseTags.filter (fun tag => decide (tag ∉ tagOps.remove))) tagOps.tags

/-- The GET issued by `cmdUpdate`'s ops branch. -/
def getRaindropReq (id : Nat) : Request :=
  { method := .get, endpoint := .raindrop id, permanentQuery := false,
    tagsBody := none, urlQuery := none }

/-- The PUT issued by `cmdUpdate` carrying the tags payload. -/
def putRaindropReq (id : Nat) (tags : List Str) : Request :=
  { method := .put, endpoint := .raindrop id, permanentQuery := false,
    tagsBody := some tags, urlQuery := none }

/-- `cmdUpdate`, single-id path, with `--tags` given: `existingTags` is the
oracle answer of the GET (`item.tags`, `[]` when the field is absent).
Replace and direct modes send the parsed tags in one PUT; ops mode reads the
resource first and writes the recomputed tag list. -/
def cmdUpdateSingle (env file : Option Str) (id : Nat) (rawTags : Str)
    (existingTags : List Str) : Outcome (List Str) :=
  withToken env file fun _ =>
    let tagOps := parseTagOps rawTags
    if tagOps.mode = TagMode.replace ∨ tagOps.mode = TagMode.direct then
      { result := .ok tagOps.tags, requests := [putRaindropReq id tagOps.tags] }
    else
      let next := updateNextTags existingTags tagOps
      { result := .ok next, requests := [getRaindropReq id, putRaindropReq id next] }

/-- The batch-mode (stdin ids) `--tags` validation of `cmdUpdate`: a missing
or empty `--tags` value is rejected, and the parsed expression is rejected
unless its mode is `ops` with an empty removal list. -/
def cmdUpdateBatchCheck (rawTags : Option Str) : Except CliErr TagOps :=
  match rawTags with
  | none => .error invalidArgsErr
  | some raw =>
    if raw = [] then .error invalidArgsErr
    else
      let tagOps := parseTagOps raw
      if tagOps.mode ≠ TagMode.ops ∨ tagOps.remove ≠ [] then .error invalidArgsErr
      else .ok tagOps

/-- `parseSearchMode` from `cli.ts`: a trimmed query with a leading `#` or
containing `:` defaults to reverse-chronological sort, anything else to
relevance sort. -/
def parseSearchMode (query : Str) : Str :=
  if startsWithChar '#' (strTrim query) || (strTrim query).contains ':' then "-created".data
  else "score".data

/-- Sort selection in `cmdSearch`: an explicit `--sort` value wins, otherwise
`parseSearchMode` of the query. -/
def cmdSearchSort (sortFlag : Option Str) (query : Str) : Str :=
  match sortFlag with
  | some s => s
  | none => parseSearchMode query

/-- One upstream page as consumed by `fetchAllRaindrops`: the extracted
`items` array and the numeric `count` field when present and finite. -/
structure PageResp (α : Type) where
  items : List α
  count : Option Nat

/-- `queryLimit` in `fetchAllRaindrops`: the numeric `limit` query value when
present, else 50. -/
def fetchAllQueryLimit (limit : Option Nat) : Nat := limit.getD 50

/-- `pageSize` in `fetchAllRaindrops`: `queryLimit` when positive, else 50. -/
def fetchAllPageSize (limit : Option Nat) : Nat :=
  if fetchAllQueryLimit limit > 0 then fetchAllQueryLimit limit else 50

/-- The `while (page < maxPages)` loop of `fetchAllRaindrops`; `fuel` is the
number of iterations left before the 200-page ceiling.  `upstream` is the
oracle of page responses; the accumulator `out` and the latest reported
total `expectedTotal` are threaded exactly as in the source.  Returns the
accumulated items together with the list of requested page numbers. -/
def fetchAllLoop {α : Type} (upstream : Nat → PageResp α) (pageSize : Nat) :
    Nat → Nat → Option Nat → List α → List α × List Nat
  | 0, _, _, out => (out, [])
  | fuel + 1, page, expectedTotal, out =>
    let resp := upstream page
    let expTot := match resp.count with
      | some n => some n
      | none => expectedTotal
    if resp.items.length = 0 then (out, [page])
    else
      let out2 := out ++ resp.items
      if (match expTot with
          | some n => decide (n ≤ out2.length)
          | none => false) then (out2, [page])
      else if resp.items.length < pageSize then (out2, [page])
      else
        let next := fetchAllLoop upstream pageSize fuel (page + 1) expTot out2
        (next.1, page :: next.2)

/-- `fetchAllRaindrops` from `cli.ts`: `maxPages = 200`, starting at page 0
with no expected total and an empty accumulator. -/
def fetchAllRaindrops {α : Type} (upstream : Nat → PageResp α) (limit : Option Nat) :
    List α × List Nat :=
  fetchAllLoop upstream (fetchAllPageSize limit) 200 0 none []

/-- Total number of items in upstream pages before page `p`. -/
def prefixLen {α : Type} (upstream : Nat → PageResp α) : Nat → Nat
  | 0 => 0
  | p + 1 => prefixLen upstream p + (upstream p).items.length

/-- Most recently reported `count` among upstream pages before page `p`. -/
def prefixCount {α : Type} (upstream : Nat → PageResp α) : Nat → Option Nat
  | 0 => none
  | p + 1 =>
    match (upstream p).count with
    | some n => some n
    | none => prefixCount upstream p

/-- The stop condition the `fetchAllRaindrops` loop evaluates right after
requesting page `i` (for a run started at page 0 with an empty accumulator):
the page was empty, or the most recently reported total has been reached by
the accumulated items, or the page was shorter than the page size. -/
def stopAfter {α : Type} (upstream : Nat → PageResp α) (pageSize i : Nat) : Bool :=
  decide ((upstream i).items.length = 0)
  || (match prefixCount upstream (i + 1) with
      | some n => decide (n ≤ prefixLen upstream (i + 1))
      | none => false)
  || decide ((upstream i).items.length < pageSize)

/-- The request loop of `cmdLs` with `--all`: pages are requested until one
returns zero items.  The source loop is unbounded (`while (true)` with no
page ceiling); `fuel` only bounds the observation window of the model.
Returns the requested page numbers. -/
def lsAllLoop {α : Type} (upstream : Nat → List α) : Nat → Nat → List Nat
  | 0, _ => []
  | fuel + 1, page =>
    if (upstream page).length = 0 then [page]
    else page :: lsAllLoop upstream fuel (page + 1)

/-- An item as consumed by `cmdWatch`: its numeric id and the parsed
`lastUpdate` instant in milliseconds; `none` models a missing or
unparseable `lastUpdate` (a non-finite `Date.parse` result), which the loop
skips. -/
structure WItem where
  id : Nat
  lastUpdate : Option Int
deriving DecidableEq

/-- The aggregation state of `cmdWatch`: the seen-id set (as an insertion
ordered list) and the collected fresh items. -/
structure WatchSt where
  seen : List Nat
  fresh : List WItem
deriving DecidableEq

/-- The modification instant of an item, defaulting to 0 when unparseable
(only used to state sortedness; items without a parseable instant are
skipped by the loop). -/
def timeOf (item : WItem) : Int := item.lastUpdate.getD 0

/-- Descending-modification-time order between two items: the later-listed
item is not newer than the earlier-listed one. -/
def newerEq (a b : WItem) : Prop := timeOf b ≤ timeOf a

instance : DecidableRel newerEq :=
  fun a b => inferInstanceAs (Decidable (timeOf b ≤ timeOf a))

/-- Whether an item makes the `cmdWatch` page scan set `reachedOld`: it has
a parseable `lastUpdate` at or before the relaxed threshold. -/
def watchOld (thr : Int) (item : WItem) : Bool :=
  match item.lastUpdate with
  | none => false
  | some t => decide (t ≤ thr)

/-- One item of the `cmdWatch` page scan, state component only: an item with
a parseable `lastUpdate` strictly newer than the relaxed threshold is
collected unless its id has been seen; everything else leaves the state
unchanged. -/
def watchStateStep (thr : Int) (st : WatchSt) (item : WItem) : WatchSt :=
  match item.lastUpdate with
  | none => st
  | some t =>
    if thr < t then
      if item.id ∈ st.seen then st
      else { seen := st.seen ++ [item.id], fresh := st.fresh ++ [item] }
    else st

/-- One item of the `cmdWatch` page scan with the `reachedOld` flag threaded
exactly as in the source `for` loop (the flag is set by an old item and the
scan keeps going). -/
def watchItemStep (thr : Int) (acc : WatchSt × Bool) (item : WItem) : WatchSt × Bool :=
  match item.lastUpdate with
  | none => acc
  | some t =>
    if thr < t then
      if item.id ∈ acc.1.seen then acc
      else ({ seen := acc.1.seen ++ [item.id], fresh := acc.1.fresh ++ [item] }, acc.2)
    else (acc.1, true)

/-- The scan of one fetched page in `cmdWatch`: fold the items through the
item step starting with `reachedOld = false`. -/
def watchPage (thr : Int) (st : WatchSt) (items : List WItem) : WatchSt × Bool :=
  items.foldl (watchItemStep thr) (st, false)

/-- The page-fetch loop of `cmdWatch` over a finite list of upstream pages
(fetches past the end of the list return zero items, which is the loop's
empty-page break): stop on an empty page, or right after the first page
whose scan set `reachedOld`; otherwise continue with the next page. -/
def watchLoop (thr : Int) : List (List WItem) → WatchSt → WatchSt
  | [], st => st
  | items :: rest, st =>
    if items.length = 0 then st
    else
      if (watchPage thr st items).2 then (watchPage thr st items).1
      else watchLoop thr rest (watchPage thr st items).1

/-- `cmdWatch` from `cli.ts`: the relaxed threshold is `since - 60s`; run
the pagination loop from the empty state, then re-apply the strict
(non-relaxed) cutoff to the collected items. -/
def cmdWatch (sinceMs : Int) (pages : List (List WItem)) : List WItem :=
  (watchLoop (sinceMs - 60000) pages { seen := [], fresh := [] }).fresh.filter
    (fun item =>
      match item.lastUpdate with
      | some t => decide (sinceMs < t)
      | none => false)

/-- Invariant of the `cmdWatch` aggregation state after scanning the items
of `processed`: the seen ids are exactly the fresh ids (without
duplicates); every fresh item was processed and is strictly newer than the
relaxed threshold; every processed item strictly newer than the relaxed
threshold has its id among the seen ids; and a fresh item is at least as
new as every processed item sharing its id. -/
def WatchInv (thr : Int) (processed : List WItem) (st : WatchSt) : Prop :=
  st.seen = st.fresh.map WItem.id
  ∧ st.seen.Nodup
  ∧ (∀ x ∈ st.fresh, x ∈ processed ∧ ∃ t, x.lastUpdate = some t ∧ thr < t)
  ∧ (∀ y ∈ processed, ∀ t, y.lastUpdate = some t → thr < t → y.id ∈ st.seen)
  ∧ (∀ x ∈ st.fresh, ∀ y ∈ processed, y.id = x.id →
      ∀ ty, y.lastUpdate = some ty → ∀ tx, x.lastUpdate = some tx → ty ≤ tx)

/-- Concrete two-page fixture for the watch theorem: overlapping pages in
descending modification order, with the duplicated item observed across
both fetches and an old item ending the scan. -/
def watchPagesEx : List (List WItem) :=
  [[{ id := 1, lastUpdate := some 1200000 }, { id := 2, lastUpdate := some 1130000 }],
   [{ id := 2, lastUpdate := some 1130000 }, { id := 3, lastUpdate := some 900000 }]]

/-- `validateUrl` from `cli.ts`: `none` models an input the WHATWG URL
parser rejects (the constructor throws); a parsed URL is rejected unless
its scheme is http or https. -/
def validateUrl (input : Option UrlParts) : Except CliErr UrlParts :=
  match input with
  | none => .error invalidArgsErr
  | some u =>
    if u.scheme ≠ "http".data ∧ u.scheme ≠ "https".data then .error invalidArgsErr
    else .ok u

/-- The `while` loop of `normalizeUrl` stripping trailing slashes from the
pathname while its length exceeds 1, acting on the reversed character
list. -/
def stripSlashesRev : Str → Str
  | [] => []
  | c :: rest => if c = '/' ∧ rest ≠ [] then stripSlashesRev rest else c :: rest

/-- Trailing-slash stripping of `normalizeUrl` on the pathname itself. -/
def stripTrailingSlashes (p : Str) : Str := (stripSlashesRev p.reverse).reverse

/-- `normalizeUrl` from `cli.ts`: validate, force the https scheme, drop
the fragment, delete every query parameter whose name starts
(case-insensitively) with `utm_`, and strip trailing slashes from the
path. -/
def normalizeUrl (input : Option UrlParts) : Except CliErr UrlParts :=
  match validateUrl input with
  | .error e => .error e
  | .ok url => .ok { url with
      scheme := "https".data
      fragment := []
      query := url.query.filter (fun kv => !("utm_".data.isPrefixOf (strToLower kv.1)))
      path := stripTrailingSlashes url.path }

/-- The single-URL path of `cmdExists`: resolve the token, normalize the
URL (an invalid URL aborts with `INVALID_ARGS` before any request), then
issue one GET of `/exists` carrying the normalized URL; `found` is the
oracle answer of that lookup. -/
def cmdExistsSingleUrl (env file : Option Str) (input : Option UrlParts)
    (found : Option Nat) : Outcome (Option Nat) :=
  withToken env file fun _ =>
    match normalizeUrl input with
    | .error e => { result := .error e, requests := [] }
    | .ok u =>
      { result := .ok found
        requests := [{ method := .get, endpoint := .existsUrl, permanentQuery := false,
                       tagsBody := none, urlQuery := some u }] }

/-- Concrete URL fixture for the exists-normalization theorem: http scheme,
a utm_ tracking parameter, a fragment, and a trailing slash. -/
def urlEx : UrlParts :=
  { scheme := "http".data
    host := "example.com".data
    path := "/a/".data
    query := [("utm_source".data, "x".data), ("q".data, "1".data)]
    fragment := "frag".data }

end Rain

namespace Rain

/-- C1: a transport failure is classified `NETWORK_ERROR`/5; status 401 or
403 is `AUTH_INVALID`/3; 404 is `NOT_FOUND`/1; 429 is `RATE_LIMITED`/4; any
other non-2xx status is `API_ERROR`/5; a 2xx response is never classified as
an error. -/
theorem c1_error_classification :
    requestOutcome FetchOutcome.transportFail = Except.error networkErr
    ∧ (∀ s : Nat, s = 401 ∨ s = 403 →
        requestOutcome (FetchOutcome.response s) = Except.error authInvalidErr)
    ∧ requestOutcome (FetchOutcome.response 404) = Except.error notFoundErr
    ∧ requestOutcome (FetchOutcome.response 429) = Except.error rateLimitedErr
    ∧ (∀ s : Nat, ¬ (200 ≤ s ∧ s < 300) →
        s ≠ 401 → s ≠ 403 → s ≠ 404 → s ≠ 429 →
        requestOutcome (FetchOutcome.response s) = Except.error apiErr)
    ∧ (∀ s : Nat, 200 ≤ s → s < 300 →
        requestOutcome (FetchOutcome.response s) = Except.ok ())
    ∧ networkErr.exit = 5 ∧ authInvalidErr.exit = 3 ∧ notFoundErr.exit = 1
    ∧ rateLimitedErr.exit = 4 ∧ apiErr.exit = 5 := by
  refine ⟨rfl, ?_, rfl, rfl, ?_, ?_, rfl, rfl, rfl, rfl, rfl⟩
  · rintro s (rfl | rfl) <;> rfl
  · intro s hok h1 h3 h4 h9
    have hcond : ¬ (s = 401 ∨ s = 403) := by
      rintro (rfl | rfl) <;> simp at h1 h3
    simp only [requestOutcome, mapHttpStatus, if_neg hok, if_neg hcond, if_neg h4, if_neg h9]
  · intro s h2 h3
    simp only [requestOutcome, if_pos (And.intro h2 h3)]

/-- Witness for C1 at concrete statuses 403, 500 and 204. -/
theorem c1_error_classification_witness :
    requestOutcome (FetchOutcome.response 403) = Except.error authInvalidErr
    ∧ requestOutcome (FetchOutcome.response 500) = Except.error apiErr
    ∧ requestOutcome (FetchOutcome.response 204) = Except.ok () :=
  ⟨c1_error_classification.2.1 403 (Or.inr rfl),
   c1_error_classification.2.2.2.2.1 500 (by decide) (by decide) (by decide) (by decide) (by decide),
   c1_error_classification.2.2.2.2.2.1 204 (by decide) (by decide)⟩

/-- C2: when neither a non-empty trimmed environment token nor a non-empty
trimmed config-file token exists, an authenticated handler terminates with
`AUTH_MISSING` / exit 3 and issues zero requests (every handler in `cli.ts`
calls `requireToken` before its first `requestJson`, which `withToken`
embeds). -/
theorem c2_auth_missing_zero_requests {α : Type} (env file : Option Str)
    (k : Str → Outcome α)
    (henv : ∀ e, env = some e → strTrim e = [])
    (hfile : ∀ f, file = some f → strTrim f = []) :
    withToken env file k = { result := Except.error authMissingErr, requests := [] }
    ∧ authMissingErr.exit = 3 := by
  refine ⟨?_, rfl⟩
  have hread : readTokenFromFile file = none := by
    cases file with
    | none => rfl
    | some f =>
      have hf := hfile f rfl
      simp [readTokenFromFile, hf]
  cases env with
  | none => simp [withToken, requireToken, hread]
  | some e =>
    have he := henv e rfl
    simp [withToken, requireToken, he, hread]

/-- Witness for C2: whitespace-only environment token, no config file. -/
theorem c2_auth_missing_zero_requests_witness :
    withToken (α := Unit) (some "  ".data) none
        (fun _ => { result := Except.ok (), requests := [] })
      = { result := Except.error authMissingErr, requests := [] } :=
  (c2_auth_missing_zero_requests (some "  ".data) none _
    (by intro e he; cases he; decide) (by intro f hf; cases hf)).1

/-- C5 (code evaluated at the failing input): `rm 483920 --permanent` with a
token present issues exactly one request, a DELETE of `/raindrop/483920`
with `permanent=true` in the query, and no prior trash-move call. -/
theorem c5_permanent_delete_single_call :
    cmdRm (some "token".data) none 483920 true
      = { result := Except.ok ()
          requests := [{ method := Method.delete, endpoint := Endpoint.raindrop 483920,
                         permanentQuery := true, tagsBody := none, urlQuery := none }] }
    ∧ (cmdRm (some "token".data) none 483920 true).requests.length = 1 := by
  constructor <;> rfl

/-- C8: for a single-URL `exists` lookup that completes without a classified
failure, the exit code is 0 iff the upstream reported a found id and 1 iff
it did not, and the printed envelope has `ok = true` in both cases, with the
found id as data when found and null when not. -/
theorem c8_exists_exit_codes (found : Option Nat) :
    ((existsEnvelope found).2 = 0 ↔ found.isSome = true)
    ∧ ((existsEnvelope found).2 = 1 ↔ found.isNone = true)
    ∧ (existsEnvelope found).1.1 = true
    ∧ (existsEnvelope found).1.2 = found := by
  cases found <;> simp [existsEnvelope]

theorem mem_addMissingTags (tags : List Str) (next : List Str) (t : Str) :
    t ∈ addMissingTags next tags ↔ t ∈ next ∨ t ∈ tags := by
  induction tags generalizing next with
  | nil => simp [addMissingTags]
  | cons a ts ih =>
    have hstep : addMissingTags next (a :: ts)
        = addMissingTags (if a ∈ next then next else next ++ [a]) ts := rfl
    by_cases h : a ∈ next
    · rw [hstep, if_pos h, ih]
      simp only [List.mem_cons]
      constructor
      · rintro (h1 | h2)
        · exact Or.inl h1
        · exact Or.inr (Or.inr h2)
      · rintro (h1 | rfl | h2)
        · exact Or.inl h1
        · exact Or.inl h
        · exact Or.inr h2
    · rw [hstep, if_neg h, ih]
      simp only [List.mem_append, List.mem_cons, List.mem_singleton]
      tauto

theorem addMissingTags_split (tags : List Str) (next : List Str) :
    ∃ extra, addMissingTags next tags = next ++ extra
      ∧ (∀ t ∈ extra, t ∈ tags) ∧ extra.Nodup ∧ (∀ t ∈ extra, t ∉ next) := by
  induction tags generalizing next with
  | nil => exact ⟨[], by simp [addMissingTags]⟩
  | cons a ts ih =>
    have hstep : addMissingTags next (a :: ts)
        = addMissingTags (if a ∈ next then next else next ++ [a]) ts := rfl
    by_cases h : a ∈ next
    · rw [hstep, if_pos h]
      obtain ⟨extra, he, hsub, hnd, hdisj⟩ := ih next
      exact ⟨extra, he, fun t ht => List.mem_cons_of_mem a (hsub t ht), hnd, hdisj⟩
    · rw [hstep, if_neg h]
      obtain ⟨extra, he, hsub, hnd, hdisj⟩ := ih (next ++ [a])
      refine ⟨a :: extra, ?_, ?_, ?_, ?_⟩
      · rw [he, List.append_assoc]
        rfl
      · intro t ht
        rcases List.mem_cons.mp ht with rfl | ht2
        · exact List.mem_cons_self _ _
        · exact List.mem_cons_of_mem _ (hsub t ht2)
      · refine List.nodup_cons.mpr ⟨?_, hnd⟩
        intro ha
        exact hdisj a ha (by simp)
      · intro t ht
        rcases List.mem_cons.mp ht with rfl | ht2
        · exact h
        · intro hn
          exact hdisj t ht2 (List.mem_append_left _ hn)

theorem mem_updateNextTags (base : List Str) (tagOps : TagOps) (t : Str) :
    t ∈ updateNextTags base tagOps ↔
      ((t ∈ base ∧ t ∉ tagOps.remove) ∨ t ∈ tagOps.tags) := by
  rw [updateNextTags, mem_addMissingTags, List.mem_filter]
  simp

/-- C3: for a single-id update whose `--tags` expression parses to ops mode,
exactly one GET of `/raindrop/{id}` is issued followed by exactly one PUT,
and the written tag list equals (existing minus removed) union added —
retained existing tags keep their relative order (they form the
`filter`-prefix) and added tags are appended only when not already
present. -/
theorem c3_update_ops_read_modify_write (env file : Option Str) (tok : Str) (id : Nat)
    (raw : Str) (existing : List Str)
    (htok : requireToken env file = Except.ok tok)
    (hmode : (parseTagOps raw).mode = TagMode.ops) :
    (cmdUpdateSingle env file id raw existing).requests
      = [getRaindropReq id, putRaindropReq id (updateNextTags existing (parseTagOps raw))]
    ∧ (cmdUpdateSingle env file id raw existing).result
      = Except.ok (updateNextTags existing (parseTagOps raw))
    ∧ (∀ t, t ∈ updateNextTags existing (parseTagOps raw) ↔
        ((t ∈ existing ∧ t ∉ (parseTagOps raw).remove) ∨ t ∈ (parseTagOps raw).tags))
    ∧ (∃ extra, updateNextTags existing (parseTagOps raw)
          = existing.filter (fun tag => decide (tag ∉ (parseTagOps raw).remove)) ++ extra
        ∧ (∀ t ∈ extra, t ∈ (parseTagOps raw).tags)
        ∧ extra.Nodup
        ∧ (∀ t ∈ extra,
            t ∉ existing.filter (fun tag => decide (tag ∉ (parseTagOps raw).remove)))) := by
  have hnotrd : ¬ ((parseTagOps raw).mode = TagMode.replace
      ∨ (parseTagOps raw).mode = TagMode.direct) := by
    rw [hmode]
    rintro (h | h) <;> simp at h
  have hrun : cmdUpdateSingle env file id raw existing
      = { result := Except.ok (updateNextTags existing (parseTagOps raw))
          requests := [getRaindropReq id,
                       putRaindropReq id (updateNextTags existing (parseTagOps raw))] } := by
    rw [cmdUpdateSingle, withToken, htok]
    simp only [if_neg hnotrd]
  refine ⟨by rw [hrun], by rw [hrun], fun t => mem_updateNextTags existing (parseTagOps raw) t, ?_⟩
  exact addMissingTags_split (parseTagOps raw).tags _

/-- Witness for C3: the end-to-end example of the spec — updating a resource
tagged `[api, old]` with `--tags +new,-old` issues one GET then one PUT
whose payload tags are `[api, new]`. -/
theorem c3_update_ops_read_modify_write_witness :
    (cmdUpdateSingle (some "tok".data) none 483920 "+new,-old".data
        ["api".data, "old".data]).requests
      = [getRaindropReq 483920, putRaindropReq 483920 ["api".data, "new".data]] := by
  have h := (c3_update_ops_read_modify_write (some "tok".data) none "tok".data 483920
    "+new,-old".data ["api".data, "old".data] rfl (by decide)).1
  rw [h]
  decide

/-- C4 (amended): with no explicit `--sort`, the sort sent upstream is
`score` exactly when the trimmed query neither starts with `#` nor contains
`:` — including the empty query, which also gets `score`; otherwise it is
`-created`; an explicit `--sort` value is always sent instead. -/
theorem c4_search_sort_default (q s : Str) :
    (cmdSearchSort none q = "score".data ↔
      (startsWithChar '#' (strTrim q) = false ∧ ':' ∉ strTrim q))
    ∧ (cmdSearchSort none q = "score".data ∨ cmdSearchSort none q = "-created".data)
    ∧ cmdSearchSort (some s) q = s
    ∧ cmdSearchSort none [] = "score".data := by
  refine ⟨?_, ?_, rfl, rfl⟩ <;>
    cases h1 : startsWithChar '#' (strTrim q) <;>
      cases h2 : (strTrim q).contains ':' <;>
        simp_all [cmdSearchSort, parseSearchMode]

/-- C4 counterexample: the claim requires the reverse-chronological default
for an empty query, but the code selects the relevance sort `score` for the
empty query (its trimmed form has no leading `#` and no `:`). -/
theorem c4_empty_query_counterexample :
    cmdSearchSort none "".data = "score".data
    ∧ "score".data ≠ "-created".data
    ∧ ("".data : Str).length = 0 := by
  refine ⟨rfl, by decide, rfl⟩

theorem startsWithChar_minus_not_plus (t : Str) (h : startsWithChar '-' t = true) :
    startsWithChar '+' t = false := by
  cases t with
  | nil => simp [startsWithChar] at h
  | cons d rest =>
    simp only [startsWithChar, decide_eq_true_eq] at h
    subst h
    rfl

theorem tagOps_fold_hasOps (tokens : List Str) (a r : List Str) (b : Bool) :
    (tokens.foldl tagOpsStep (a, r, b)).2.2
      = (b || tokens.any (fun t => startsWithChar '+' t || startsWithChar '-' t)) := by
  induction tokens generalizing a r b with
  | nil => simp
  | cons t ts ih =>
    rw [List.foldl_cons, List.any_cons]
    by_cases hp : startsWithChar '+' t = true
    · have hstep : tagOpsStep (a, r, b) t = (a ++ [t.drop 1], r, true) := by
        simp [tagOpsStep, hp]
      rw [hstep, ih]
      simp [hp]
    · by_cases hm : startsWithChar '-' t = true
      · have hstep : tagOpsStep (a, r, b) t = (a, r ++ [t.drop 1], true) := by
          simp [tagOpsStep, hp, hm]
        rw [hstep, ih]
        simp [hp, hm]
      · have hstep : tagOpsStep (a, r, b) t = (a ++ [t], r, b) := by
          simp [tagOpsStep, hp, hm]
        rw [hstep, ih]
        simp [hp, hm]

theorem tagOps_fold_remove (tokens : List Str) (a r : List Str) (b : Bool) :
    (tokens.foldl tagOpsStep (a, r, b)).2.1
      = r ++ (tokens.filter
          (fun t => !(startsWithChar '+' t) && startsWithChar '-' t)).map
            (fun t => t.drop 1) := by
  induction tokens generalizing a r b with
  | nil => simp
  | cons t ts ih =>
    rw [List.foldl_cons, List.filter_cons]
    by_cases hp : startsWithChar '+' t = true
    · have hstep : tagOpsStep (a, r, b) t = (a ++ [t.drop 1], r, true) := by
        simp [tagOpsStep, hp]
      rw [hstep, ih]
      simp [hp]
    · by_cases hm : startsWithChar '-' t = true
      · have hstep : tagOpsStep (a, r, b) t = (a, r ++ [t.drop 1], true) := by
          simp [tagOpsStep, hp, hm]
        rw [hstep, ih]
        simp [hp, hm]
      · have hstep : tagOpsStep (a, r, b) t = (a ++ [t], r, b) := by
          simp [tagOpsStep, hp, hm]
        rw [hstep, ih]
        simp [hp, hm]

/-- C9 (amended): a batch (stdin-ids) update `--tags` expression is rejected
with `INVALID_ARGS`/exit 2 unless it parses to ops mode with an empty
removal set; equivalently it is accepted iff its raw value does not start
with `=`, contains at least one `+`-signed token, and contains no `-`-signed
token (an `=`-prefixed token after the first position is treated as a plain
additive tag, not a replace marker); a bare unsigned tag list (direct mode)
is rejected. -/
theorem c9_batch_update_tags (raw : Str) (hne : raw ≠ []) :
    ((cmdUpdateBatchCheck (some raw)).isOk = true ↔
       (startsWithChar '=' raw = false
        ∧ (∃ t ∈ parseTags raw, startsWithChar '+' t = true)
        ∧ (∀ t ∈ parseTags raw, startsWithChar '-' t = false)))
    ∧ ((parseTagOps raw).mode = TagMode.direct →
        cmdUpdateBatchCheck (some raw) = Except.error invalidArgsErr)
    ∧ ((cmdUpdateBatchCheck (some raw)).isOk = false →
        cmdUpdateBatchCheck (some raw) = Except.error invalidArgsErr)
    ∧ cmdUpdateBatchCheck none = Except.error invalidArgsErr
    ∧ invalidArgsErr.exit = 2 := by
  have hcheck : cmdUpdateBatchCheck (some raw)
      = (if (parseTagOps raw).mode ≠ TagMode.ops ∨ (parseTagOps raw).remove ≠ [] then
          Except.error invalidArgsErr else Except.ok (parseTagOps raw)) := by
    simp [cmdUpdateBatchCheck, hne]
  have hchar : ((parseTagOps raw).mode = TagMode.ops ∧ (parseTagOps raw).remove = []) ↔
      (startsWithChar '=' raw = false
       ∧ (∃ t ∈ parseTags raw, startsWithChar '+' t = true)
       ∧ (∀ t ∈ parseTags raw, startsWithChar '-' t = false)) := by
    by_cases hstart : startsWithChar '=' raw = true
    · constructor
      · rintro ⟨hm, -⟩
        rw [parseTagOps, if_pos hstart] at hm
        simp at hm
      · rintro ⟨hs, -⟩
        rw [hstart] at hs
        cases hs
    · have hB : startsWithChar '=' raw = false := by
        cases hx : startsWithChar '=' raw
        · rfl
        · exact absurd hx hstart
      have hPT : parseTagOps raw
          = { mode := if ((parseTags raw).foldl tagOpsStep ([], [], false)).2.2 then
                TagMode.ops else TagMode.direct
              tags := ((parseTags raw).foldl tagOpsStep ([], [], false)).1
              remove := ((parseTags raw).foldl tagOpsStep ([], [], false)).2.1 } := by
        rw [parseTagOps, if_neg hstart]
      rw [hPT]
      simp only [tagOps_fold_hasOps, tagOps_fold_remove, Bool.false_or, List.nil_append]
      constructor
      · rintro ⟨hmode, hrem⟩
        have hany : (parseTags raw).any
            (fun t => startsWithChar '+' t || startsWithChar '-' t) = true := by
          cases hx : (parseTags raw).any
              (fun t => startsWithChar '+' t || startsWithChar '-' t)
          · rw [hx] at hmode
            simp at hmode
          · rfl
        have hfil : (parseTags raw).filter
            (fun t => !(startsWithChar '+' t) && startsWithChar '-' t) = [] :=
          List.map_eq_nil_iff.mp hrem
        have hnominus : ∀ t ∈ parseTags raw, startsWithChar '-' t = false := by
          intro t ht
          cases hmt : startsWithChar '-' t
          · rfl
          · exfalso
            have hpt := startsWithChar_minus_not_plus t hmt
            have hmem : t ∈ (parseTags raw).filter
                (fun t => !(startsWithChar '+' t) && startsWithChar '-' t) :=
              List.mem_filter.mpr ⟨ht, by simp [hpt, hmt]⟩
            rw [hfil] at hmem
            cases hmem
        refine ⟨hB, ?_, hnominus⟩
        obtain ⟨t, ht, hor⟩ := List.any_eq_true.mp hany
        rcases (Bool.or_eq_true _ _).mp hor with hplus | hminus
        · exact ⟨t, ht, hplus⟩
        · exact absurd (hnominus t ht) (by rw [hminus]; decide)
      · rintro ⟨-, ⟨t, ht, hplus⟩, hnominus⟩
        have hany : (parseTags raw).any
            (fun t => startsWithChar '+' t || startsWithChar '-' t) = true :=
          List.any_eq_true.mpr ⟨t, ht, by simp [hplus]⟩
        have hfil : (parseTags raw).filter
            (fun t => !(startsWithChar '+' t) && startsWithChar '-' t) = [] :=
          List.filter_eq_nil_iff.mpr (fun t2 ht2 => by simp [hnominus t2 ht2])
        rw [hany, hfil]
        exact ⟨rfl, rfl⟩
  by_cases hc : (parseTagOps raw).mode = TagMode.ops ∧ (parseTagOps raw).remove = []
  · have hcond : ¬ ((parseTagOps raw).mode ≠ TagMode.ops
        ∨ (parseTagOps raw).remove ≠ []) := by
      rintro (h | h)
      · exact h hc.1
      · exact h hc.2
    have hok : cmdUpdateBatchCheck (some raw) = Except.ok (parseTagOps raw) := by
      rw [hcheck, if_neg hcond]
    refine ⟨?_, ?_, ?_, rfl, rfl⟩
    · rw [hok]
      exact iff_of_true rfl (hchar.mp hc)
    · intro hdir
      rw [hc.1] at hdir
      simp at hdir
    · intro hfalse
      rw [hok] at hfalse
      exact Bool.noConfusion hfalse
  · have hcond : (parseTagOps raw).mode ≠ TagMode.ops ∨ (parseTagOps raw).remove ≠ [] := by
      by_contra hno
      push_neg at hno
      exact hc ⟨hno.1, hno.2⟩
    have herr : cmdUpdateBatchCheck (some raw) = Except.error invalidArgsErr := by
      rw [hcheck, if_pos hcond]
    refine ⟨?_, fun _ => herr, fun _ => herr, rfl, rfl⟩
    rw [herr]
    exact iff_of_false (fun hko => Bool.noConfusion hko)
      (fun hrhs => hc (hchar.mpr hrhs))

/-- Witness for C9: the purely additive ops expression `+a` is accepted for
batch update, while the bare (direct-mode) tag list `foo` is rejected with
`INVALID_ARGS`. -/
theorem c9_batch_update_tags_witness :
    (cmdUpdateBatchCheck (some "+a".data)).isOk = true
    ∧ cmdUpdateBatchCheck (some "foo".data) = Except.error invalidArgsErr :=
  ⟨(c9_batch_update_tags "+a".data (by decide)).1.mpr (by decide),
   (c9_batch_update_tags "foo".data (by decide)).2.1 (by decide)⟩

/-- C9 counterexample: the expression `+a,=b` contains the `=`-prefixed
token `=b`, yet it parses to ops mode with no removals and is accepted for
batch update — contradicting the claim that only expressions with no `=`
token are accepted. -/
theorem c9_equals_token_counterexample :
    (cmdUpdateBatchCheck (some "+a,=b".data)).isOk = true
    ∧ "=b".data ∈ parseTags "+a,=b".data
    ∧ startsWithChar '=' "=b".data = true := by
  refine ⟨rfl, by decide, rfl⟩

theorem fetchAllLoop_succ {α : Type} (u : Nat → PageResp α) (ps fuel page : Nat)
    (tot : Option Nat) (out : List α) :
    fetchAllLoop u ps (fuel + 1) page tot out =
      if (u page).items.length = 0 then (out, [page])
      else if (match (match (u page).count with
                      | some n => some n
                      | none => tot) with
                | some n => decide (n ≤ (out ++ (u page).items).length)
                | none => false) then (out ++ (u page).items, [page])
      else if (u page).items.length < ps then (out ++ (u page).items, [page])
      else
        ((fetchAllLoop u ps fuel (page + 1)
            (match (u page).count with | some n => some n | none => tot)
            (out ++ (u page).items)).1,
         page :: (fetchAllLoop u ps fuel (page + 1)
            (match (u page).count with | some n => some n | none => tot)
            (out ++ (u page).items)).2) := rfl

theorem fetchAllLoop_length_le {α : Type} (u : Nat → PageResp α) (ps : Nat) :
    ∀ fuel page tot out, (fetchAllLoop u ps fuel page tot out).2.length ≤ fuel := by
  intro fuel
  induction fuel with
  | zero =>
    intro page tot out
    simp [fetchAllLoop]
  | succ n ih =>
    intro page tot out
    rw [fetchAllLoop_succ]
    split
    · simp
    · split
      · simp
      · split
        · simp
        · simpa using Nat.succ_le_succ (ih (page + 1) _ _)

theorem fetchAllLoop_mem_ge {α : Type} (u : Nat → PageResp α) (ps : Nat) :
    ∀ fuel page tot out q, q ∈ (fetchAllLoop u ps fuel page tot out).2 → page ≤ q := by
  intro fuel
  induction fuel with
  | zero =>
    intro page tot out q hq
    simp [fetchAllLoop] at hq
  | succ n ih =>
    intro page tot out q hq
    rw [fetchAllLoop_succ] at hq
    split at hq
    · simp at hq
      omega
    · split at hq
      · simp at hq
        omega
      · split at hq
        · simp at hq
          omega
        · rcases List.mem_cons.mp hq with rfl | h2
          · exact Nat.le_refl q
          · have := ih (page + 1) _ _ q h2
            omega

theorem fetchAllLoop_range {α : Type} (u : Nat → PageResp α) (ps : Nat) :
    ∀ fuel page tot out, ∃ k, (fetchAllLoop u ps fuel page tot out).2 = List.range' page k := by
  intro fuel
  induction fuel with
  | zero =>
    intro page tot out
    exact ⟨0, rfl⟩
  | succ n ih =>
    intro page tot out
    rw [fetchAllLoop_succ]
    split
    · exact ⟨1, rfl⟩
    · split
      · exact ⟨1, rfl⟩
      · split
        · exact ⟨1, rfl⟩
        · obtain ⟨k, hk⟩ := ih (page + 1)
            (match (u page).count with | some m => some m | none => tot)
            (out ++ (u page).items)
          exact ⟨k + 1, by rw [List.range'_succ]; simp [hk]⟩

theorem fetchAllLoop_cont {α : Type} (u : Nat → PageResp α) (ps : Nat) :
    ∀ fuel page tot out,
      out.length = prefixLen u page → tot = prefixCount u page →
      ∀ i, page ≤ i → i + 1 ∈ (fetchAllLoop u ps fuel page tot out).2 →
      stopAfter u ps i = false := by
  intro fuel
  induction fuel with
  | zero =>
    intro page tot out _ _ i _ hmem
    simp [fetchAllLoop] at hmem
  | succ n ih =>
    intro page tot out hlen htot i hpage hmem
    rw [fetchAllLoop_succ] at hmem
    have hexp : (match (u page).count with
        | some m => some m
        | none => tot) = prefixCount u (page + 1) := by
      rw [htot]
      cases hc : (u page).count <;> simp [prefixCount, hc]
    have hlen2 : (out ++ (u page).items).length = prefixLen u (page + 1) := by
      simp [List.length_append, hlen, prefixLen]
    by_cases c1 : (u page).items.length = 0
    · rw [if_pos c1] at hmem
      simp at hmem
      omega
    · rw [if_neg c1] at hmem
      by_cases c2 : (match (match (u page).count with
            | some n => some n
            | none => tot) with
          | some n => decide (n ≤ (out ++ (u page).items).length)
          | none => false) = true
      · rw [if_pos c2] at hmem
        simp at hmem
        omega
      · rw [if_neg c2] at hmem
        by_cases c3 : (u page).items.length < ps
        · rw [if_pos c3] at hmem
          simp at hmem
          omega
        · rw [if_neg c3] at hmem
          rcases Nat.eq_or_lt_of_le hpage with heq | hgt
          · -- i = page: none of the three stop conditions held on this page
            rw [← heq]
            have hmb : (match prefixCount u (page + 1) with
                | some m => decide (m ≤ prefixLen u (page + 1))
                | none => false) = false := by
              rw [← hexp, ← hlen2]
              cases hb : (match (match (u page).count with
                    | some n => some n
                    | none => tot) with
                  | some n => decide (n ≤ (out ++ (u page).items).length)
                  | none => false)
              · rfl
              · exact absurd hb c2
            rw [stopAfter, hmb]
            simp [c1, c3]
          · rcases List.mem_cons.mp hmem with heq | h2
            · omega
            · exact ih (page + 1) _ _ hlen2 hexp i hgt h2

theorem lsAllLoop_mem_ge {α : Type} (uls : Nat → List α) :
    ∀ fuel page q, q ∈ lsAllLoop uls fuel page → page ≤ q := by
  intro fuel
  induction fuel with
  | zero =>
    intro page q hq
    simp [lsAllLoop] at hq
  | succ n ih =>
    intro page q hq
    rw [lsAllLoop] at hq
    by_cases hz : (uls page).length = 0
    · rw [if_pos hz] at hq
      simp at hq
      omega
    · rw [if_neg hz] at hq
      rcases List.mem_cons.mp hq with heq | h2
      · omega
      · have := ih (page + 1) q h2
        omega

theorem lsAllLoop_cont {α : Type} (uls : Nat → List α) :
    ∀ fuel page i, page ≤ i → i ∈ lsAllLoop uls fuel page →
      i + 1 ∈ lsAllLoop uls fuel page → uls i ≠ [] := by
  intro fuel
  induction fuel with
  | zero =>
    intro page i _ hi
    simp [lsAllLoop] at hi
  | succ n ih =>
    intro page i hpage hi hnext
    rw [lsAllLoop] at hi hnext
    by_cases hz : (uls page).length = 0
    · rw [if_pos hz] at hi hnext
      simp at hi hnext
      omega
    · rw [if_neg hz] at hi hnext
      rcases List.mem_cons.mp hi with heq | h2
      · rw [heq]
        intro hcon
        exact hz (by rw [hcon]; rfl)
      · have hge : page + 1 ≤ i := lsAllLoop_mem_ge uls n (page + 1) i h2
        rcases List.mem_cons.mp hnext with heq2 | h3
        · omega
        · exact ih (page + 1) i hge h2 h3

theorem lsAllLoop_const_length :
    ∀ fuel page, (lsAllLoop (fun _ : Nat => [42]) fuel page).length = fuel := by
  intro fuel
  induction fuel with
  | zero =>
    intro page
    rfl
  | succ n ih =>
    intro page
    rw [lsAllLoop]
    simp [ih]

/-- C6 (amended): export's aggregation (`fetchAllRaindrops`) requests
consecutive pages from 0, never issues more than the fixed 200-page ceiling
of requests (so it terminates even against an upstream that never returns a
short page), and stops as soon as a requested page satisfies a stop
condition — empty page, upstream-reported total reached, or a page shorter
than the page size.  The `ls --all` loop, by contrast, stops only when a
page returns zero items: it continues past short pages and has no page
ceiling, issuing one request per available iteration against an upstream
that always returns a non-empty page. -/
theorem c6_exhaustive_listing_pagination (α : Type) (u : Nat → PageResp α)
    (limit : Option Nat) (uls : Nat → List α) :
    (fetchAllRaindrops u limit).2.length ≤ 200
    ∧ (∃ k, (fetchAllRaindrops u limit).2 = List.range' 0 k)
    ∧ (∀ i, i ∈ (fetchAllRaindrops u limit).2 →
        stopAfter u (fetchAllPageSize limit) i = true →
        ∀ j ∈ (fetchAllRaindrops u limit).2, j ≤ i)
    ∧ (∀ fuel i, i ∈ lsAllLoop uls fuel 0 → i + 1 ∈ lsAllLoop uls fuel 0 → uls i ≠ [])
    ∧ (∀ fuel, (lsAllLoop (fun _ : Nat => [42]) fuel 0).length = fuel) := by
  refine ⟨fetchAllLoop_length_le u _ 200 0 none [],
    fetchAllLoop_range u _ 200 0 none [], ?_, ?_, fun fuel => lsAllLoop_const_length fuel 0⟩
  · intro i hi hstop j hj
    by_contra hgt
    push_neg at hgt
    obtain ⟨k, hk⟩ := fetchAllLoop_range u (fetchAllPageSize limit) 200 0 none []
    rw [fetchAllRaindrops] at hi hj
    rw [hk] at hi hj
    rw [List.mem_range'_1] at hi hj
    have hmem : i + 1 ∈ (fetchAllLoop u (fetchAllPageSize limit) 200 0 none []).2 := by
      rw [hk, List.mem_range'_1]
      omega
    have hfalse := fetchAllLoop_cont u (fetchAllPageSize limit) 200 0 none []
      rfl rfl i (Nat.zero_le i) hmem
    rw [hstop] at hfalse
    cases hfalse
  · intro fuel i hi hnext
    exact lsAllLoop_cont uls fuel 0 i (Nat.zero_le i) hi hnext

/-- Witness for C6: against an upstream whose every page holds one item
(with no reported total, default page size 50), the export loop stops after
page 0 — the short-page stop condition holds there — so every requested page
is ≤ 0; and the ls --all request trace observed for 3 iterations shows its
page-0 response was non-empty. -/
theorem c6_exhaustive_listing_pagination_witness :
    (fetchAllRaindrops (fun _ : Nat => PageResp.mk [7] none) none).2 = [0]
    ∧ (∀ j ∈ (fetchAllRaindrops (fun _ : Nat => PageResp.mk [7] none) none).2, j ≤ 0)
    ∧ (fun _ : Nat => [42]) 0 ≠ [] :=
  ⟨rfl,
   (c6_exhaustive_listing_pagination Nat (fun _ => PageResp.mk [7] none) none
      (fun _ => [42])).2.2.1 0 (by decide) (by decide),
   (c6_exhaustive_listing_pagination Nat (fun _ => PageResp.mk [7] none) none
      (fun _ => [42])).2.2.2.1 3 0 (by decide) (by decide)⟩

/-- C6 counterexample: `ls --all` (default page size 25) does not stop after
a short page — with an upstream returning a single item on every page, page
0 is short (1 < 25) yet pages 1 and 2 are still requested. -/
theorem c6_ls_all_short_page_counterexample :
    lsAllLoop (fun _ : Nat => [42]) 3 0 = [0, 1, 2]
    ∧ ((fun _ : Nat => [42]) 0).length < 25
    ∧ 1 ∈ lsAllLoop (fun _ : Nat => [42]) 3 0 := by
  refine ⟨rfl, by decide, by decide⟩

theorem watchItemStep_fst (thr : Int) (st : WatchSt) (b : Bool) (c : WItem) :
    (watchItemStep thr (st, b) c).1 = watchStateStep thr st c := by
  cases hl : c.lastUpdate with
  | none => simp [watchItemStep, watchStateStep, hl]
  | some t =>
    by_cases ht : thr < t
    · by_cases hs : c.id ∈ st.seen <;>
        simp [watchItemStep, watchStateStep, hl, ht, hs]
    · simp [watchItemStep, watchStateStep, hl, ht]

theorem watchItemStep_snd (thr : Int) (st : WatchSt) (b : Bool) (c : WItem) :
    (watchItemStep thr (st, b) c).2 = (b || watchOld thr c) := by
  cases hl : c.lastUpdate with
  | none => simp [watchItemStep, watchOld, hl]
  | some t =>
    by_cases ht : thr < t
    · have hof : watchOld thr c = false := by
        simp [watchOld, hl]
        omega
      by_cases hs : c.id ∈ st.seen <;>
        simp [watchItemStep, hl, ht, hs, hof]
    · have hof : watchOld thr c = true := by
        simp [watchOld, hl]
        omega
      simp [watchItemStep, hl, ht, hof]

theorem watchPage_fst (thr : Int) :
    ∀ (items : List WItem) (st : WatchSt) (b : Bool),
      (items.foldl (watchItemStep thr) (st, b)).1
        = items.foldl (watchStateStep thr) st := by
  intro items
  induction items with
  | nil =>
    intro st b
    rfl
  | cons c cs ih =>
    intro st b
    rw [List.foldl_cons, List.foldl_cons]
    have heta : watchItemStep thr (st, b) c
        = ((watchItemStep thr (st, b) c).1, (watchItemStep thr (st, b) c).2) := rfl
    rw [heta, ih, watchItemStep_fst]

theorem watchPage_snd (thr : Int) :
    ∀ (items : List WItem) (st : WatchSt) (b : Bool),
      (items.foldl (watchItemStep thr) (st, b)).2
        = (b || items.any (watchOld thr)) := by
  intro items
  induction items with
  | nil =>
    intro st b
    simp
  | cons c cs ih =>
    intro st b
    rw [List.foldl_cons, List.any_cons]
    have heta : watchItemStep thr (st, b) c
        = ((watchItemStep thr (st, b) c).1, (watchItemStep thr (st, b) c).2) := rfl
    rw [heta, ih, watchItemStep_snd]
    simp [Bool.or_assoc]

theorem watchPage_proj (thr : Int) (items : List WItem) (st : WatchSt) :
    (watchPage thr st items).1 = items.foldl (watchStateStep thr) st
    ∧ (watchPage thr st items).2 = items.any (watchOld thr) := by
  constructor
  · exact watchPage_fst thr items st false
  · have := watchPage_snd thr items st false
    simpa using this

theorem watchStateStep_inv (thr : Int) (processed : List WItem) (st : WatchSt) (c : WItem)
    (hsort : ∀ x ∈ processed, newerEq x c)
    (hinv : WatchInv thr processed st) :
    WatchInv thr (processed ++ [c]) (watchStateStep thr st c) := by
  obtain ⟨h1, h2, h3, h4, h5⟩ := hinv
  have hmemc : ∀ y ∈ processed ++ [c], y ∈ processed ∨ y = c := by
    intro y hy
    rcases List.mem_append.mp hy with hy1 | hy2
    · exact Or.inl hy1
    · exact Or.inr (List.mem_singleton.mp hy2)
  cases hl : c.lastUpdate with
  | none =>
    have hstep : watchStateStep thr st c = st := by
      simp [watchStateStep, hl]
    rw [hstep]
    refine ⟨h1, h2, ?_, ?_, ?_⟩
    · intro x hx
      obtain ⟨hmem, hte⟩ := h3 x hx
      exact ⟨List.mem_append_left _ hmem, hte⟩
    · intro y hy t hyt hthr
      rcases hmemc y hy with hy1 | rfl
      · exact h4 y hy1 t hyt hthr
      · rw [hl] at hyt
        exact Option.noConfusion hyt
    · intro x hx y hy hid ty hyt tx hxt
      rcases hmemc y hy with hy1 | rfl
      · exact h5 x hx y hy1 hid ty hyt tx hxt
      · rw [hl] at hyt
        exact Option.noConfusion hyt
  | some t =>
    by_cases hthr : thr < t
    · by_cases hseen : c.id ∈ st.seen
      · have hstep : watchStateStep thr st c = st := by
          simp [watchStateStep, hl, hthr, hseen]
        rw [hstep]
        refine ⟨h1, h2, ?_, ?_, ?_⟩
        · intro x hx
          obtain ⟨hmem, hte⟩ := h3 x hx
          exact ⟨List.mem_append_left _ hmem, hte⟩
        · intro y hy ty hyt hthy
          rcases hmemc y hy with hy1 | rfl
          · exact h4 y hy1 ty hyt hthy
          · exact hseen
        · intro x hx y hy hid ty hyt tx hxt
          rcases hmemc y hy with hy1 | rfl
          · exact h5 x hx y hy1 hid ty hyt tx hxt
          · -- y is c itself: a fresh item with the same id is at least as new
            rw [hl, Option.some_inj] at hyt
            subst hyt
            have hx1 := (h3 x hx).1
            have hrel := hsort x hx1
            simp only [newerEq, timeOf, hl, hxt, Option.getD_some] at hrel
            exact hrel
      · have hstep : watchStateStep thr st c
            = { seen := st.seen ++ [c.id], fresh := st.fresh ++ [c] } := by
          simp [watchStateStep, hl, hthr, hseen]
        rw [hstep]
        refine ⟨?_, ?_, ?_, ?_, ?_⟩
        · simp [h1]
        · rw [List.nodup_append]
          refine ⟨h2, List.nodup_singleton _, ?_⟩
          intro a ha hb
          rw [List.mem_singleton] at hb
          subst hb
          exact hseen ha
        · intro x hx
          rcases List.mem_append.mp hx with hx1 | hx2
          · obtain ⟨hmem, hte⟩ := h3 x hx1
            exact ⟨List.mem_append_left _ hmem, hte⟩
          · rw [List.mem_singleton] at hx2
            subst hx2
            exact ⟨List.mem_append_right _ (List.mem_singleton_self _), t, hl, hthr⟩
        · intro y hy ty hyt hthy
          rcases hmemc y hy with hy1 | rfl
          · exact List.mem_append_left _ (h4 y hy1 ty hyt hthy)
          · exact List.mem_append_right _ (List.mem_singleton_self _)
        · intro x hx y hy hid ty hyt tx hxt
          rcases List.mem_append.mp hx with hx1 | hx2
          · rcases hmemc y hy with hy1 | rfl
            · exact h5 x hx1 y hy1 hid ty hyt tx hxt
            · -- y = c but c.id was unseen while x is an old fresh item: absurd
              exfalso
              apply hseen
              rw [h1]
              exact List.mem_map.mpr ⟨x, hx1, hid.symm⟩
          · rw [List.mem_singleton] at hx2
            subst hx2
            rw [hl, Option.some_inj] at hxt
            subst hxt
            rcases hmemc y hy with hy1 | rfl
            · by_cases hthy : thr < ty
              · exfalso
                apply hseen
                rw [← hid]
                exact h4 y hy1 ty hyt hthy
              · omega
            · rw [hl, Option.some_inj] at hyt
              subst hyt
              omega
    · have hstep : watchStateStep thr st c = st := by
        simp [watchStateStep, hl, hthr]
      rw [hstep]
      refine ⟨h1, h2, ?_, ?_, ?_⟩
      · intro x hx
        obtain ⟨hmem, hte⟩ := h3 x hx
        exact ⟨List.mem_append_left _ hmem, hte⟩
      · intro y hy ty hyt hthy
        rcases hmemc y hy with hy1 | rfl
        · exact h4 y hy1 ty hyt hthy
        · rw [hl, Option.some_inj] at hyt
          subst hyt
          exact absurd hthy hthr
      · intro x hx y hy hid ty hyt tx hxt
        rcases hmemc y hy with hy1 | rfl
        · exact h5 x hx y hy1 hid ty hyt tx hxt
        · rw [hl, Option.some_inj] at hyt
          subst hyt
          obtain ⟨-, tx2, hxt2, hthx⟩ := h3 x hx
          rw [hxt] at hxt2
          rw [Option.some_inj] at hxt2
          subst hxt2
          omega

theorem watchFold_inv (thr : Int) :
    ∀ (l processed : List WItem) (st : WatchSt),
      List.Pairwise newerEq (processed ++ l) →
      WatchInv thr processed st →
      WatchInv thr (processed ++ l) (l.foldl (watchStateStep thr) st) := by
  intro l
  induction l with
  | nil =>
    intro processed st _ hinv
    simpa using hinv
  | cons c cs ih =>
    intro processed st hsort hinv
    have hsort' : List.Pairwise newerEq ((processed ++ [c]) ++ cs) := by
      rw [List.append_assoc]
      simpa using hsort
    have hs : ∀ x ∈ processed, newerEq x c := by
      intro x hx
      exact (List.pairwise_append.mp hsort).2.2 x hx c (List.mem_cons_self _ _)
    have hstep := watchStateStep_inv thr processed st c hs hinv
    have := ih (processed ++ [c]) (watchStateStep thr st c) hsort' hstep
    rw [List.foldl_cons]
    simpa [List.append_assoc] using this

theorem watchLoop_main (thr : Int) :
    ∀ (pages : List (List WItem)) (processed : List WItem) (st : WatchSt),
      List.Pairwise newerEq (processed ++ pages.flatten) →
      (∀ p ∈ pages, p ≠ []) →
      WatchInv thr processed st →
      ∃ q : List WItem,
        WatchInv thr q (watchLoop thr pages st)
        ∧ (∀ x ∈ q, x ∈ processed ++ pages.flatten)
        ∧ (∀ y ∈ processed ++ pages.flatten, ∀ t, y.lastUpdate = some t → thr < t →
            y ∈ q) := by
  intro pages
  induction pages with
  | nil =>
    intro processed st _ _ hinv
    refine ⟨processed, hinv, ?_, ?_⟩
    · intro x hx
      simpa using hx
    · intro y hy t _ _
      simpa using hy
  | cons pg rest ih =>
    intro processed st hsort hne hinv
    have hpg : pg ≠ [] := hne pg (List.mem_cons_self _ _)
    have hlen : ¬ pg.length = 0 := fun h => hpg (List.length_eq_zero.mp h)
    have hsortA : List.Pairwise newerEq ((processed ++ pg) ++ rest.flatten) := by
      rw [List.append_assoc]
      simpa [List.flatten_cons] using hsort
    have hfold : WatchInv thr (processed ++ pg) (pg.foldl (watchStateStep thr) st) :=
      watchFold_inv thr pg processed st (List.pairwise_append.mp hsortA).1 hinv
    have hfst : (watchPage thr st pg).1 = pg.foldl (watchStateStep thr) st :=
      (watchPage_proj thr pg st).1
    rw [watchLoop, if_neg hlen]
    by_cases hold : (watchPage thr st pg).2 = true
    · rw [if_pos hold]
      refine ⟨processed ++ pg, by rw [hfst]; exact hfold, ?_, ?_⟩
      · intro x hx
        rw [List.flatten_cons, ← List.append_assoc]
        exact List.mem_append_left _ hx
      · intro y hy t hyt hthr
        rw [List.flatten_cons, ← List.append_assoc] at hy
        rcases List.mem_append.mp hy with hy1 | hy2
        · exact hy1
        · exfalso
          have hany : pg.any (watchOld thr) = true := by
            rw [← (watchPage_proj thr pg st).2]
            exact hold
          obtain ⟨z, hz, hzold⟩ := List.any_eq_true.mp hany
          obtain ⟨tz, hzt, hzle⟩ : ∃ tz, z.lastUpdate = some tz ∧ tz ≤ thr := by
            cases hlz : z.lastUpdate with
            | none =>
              rw [watchOld, hlz] at hzold
              exact Bool.noConfusion hzold
            | some tz =>
              rw [watchOld, hlz] at hzold
              exact ⟨tz, rfl, of_decide_eq_true hzold⟩
          have hrel : newerEq z y :=
            (List.pairwise_append.mp hsortA).2.2 z (List.mem_append_right _ hz) y hy2
          simp only [newerEq, timeOf, hyt, hzt, Option.getD_some] at hrel
          omega
    · rw [if_neg hold]
      obtain ⟨q, hq1, hq2, hq3⟩ := ih (processed ++ pg) ((watchPage thr st pg).1)
        hsortA
        (fun p hp => hne p (List.mem_cons_of_mem _ hp))
        (by rw [hfst]; exact hfold)
      refine ⟨q, hq1, ?_, ?_⟩
      · intro x hx
        have := hq2 x hx
        rw [List.flatten_cons, ← List.append_assoc]
        exact this
      · intro y hy t hyt hthr
        apply hq3 y ?_ t hyt hthr
        rw [List.flatten_cons, ← List.append_assoc] at hy
        exact hy

/-- C7: over non-empty pages sorted by non-increasing modification time in
which every item carries a parseable modification instant, `watch --since T`
outputs items with pairwise-distinct ids (de-duplicated by id across
overlapping page fetches), every output item comes from the fetched pages
with a modification instant strictly greater than T, and every fetched item
with an instant strictly greater than T has its id in the output — the
final strict filter re-applies the original cutoff after the 60-second
relaxed-threshold aggregation. -/
theorem c7_watch_exact (sinceMs : Int) (pages : List (List WItem))
    (hne : ∀ p ∈ pages, p ≠ [])
    (hsort : List.Pairwise newerEq pages.flatten) :
    ((cmdWatch sinceMs pages).map WItem.id).Nodup
    ∧ (∀ x ∈ cmdWatch sinceMs pages,
        x ∈ pages.flatten ∧ ∃ t, x.lastUpdate = some t ∧ sinceMs < t)
    ∧ (∀ y ∈ pages.flatten, ∀ t, y.lastUpdate = some t → sinceMs < t →
        y.id ∈ (cmdWatch sinceMs pages).map WItem.id) := by
  obtain ⟨q, hinv, hsub, hcomp⟩ := watchLoop_main (sinceMs - 60000) pages []
    { seen := [], fresh := [] } (by simpa using hsort) hne
    ⟨rfl, List.nodup_nil, by simp, by simp, by simp⟩
  obtain ⟨h1, h2, h3, h4, h5⟩ := hinv
  have hcw : cmdWatch sinceMs pages
      = (watchLoop (sinceMs - 60000) pages { seen := [], fresh := [] }).fresh.filter
          (fun item =>
            match item.lastUpdate with
            | some t => decide (sinceMs < t)
            | none => false) := rfl
  refine ⟨?_, ?_, ?_⟩
  · rw [hcw]
    have hsubl := (List.filter_sublist
      (l := (watchLoop (sinceMs - 60000) pages { seen := [], fresh := [] }).fresh)
      (p := fun item =>
        match item.lastUpdate with
        | some t => decide (sinceMs < t)
        | none => false)).map WItem.id
    exact hsubl.nodup (h1 ▸ h2)
  · intro x hx
    rw [hcw] at hx
    obtain ⟨hxf, hpx⟩ := List.mem_filter.mp hx
    obtain ⟨hxq, t, hxt, hthr⟩ := h3 x hxf
    refine ⟨by simpa using hsub x hxq, t, hxt, ?_⟩
    rw [hxt] at hpx
    exact of_decide_eq_true hpx
  · intro y hy t hyt hT
    have hthr : sinceMs - 60000 < t := by omega
    have hyq : y ∈ q := hcomp y (by simpa using hy) t hyt hthr
    have hid : y.id ∈ (watchLoop (sinceMs - 60000) pages { seen := [], fresh := [] }).seen :=
      h4 y hyq t hyt hthr
    rw [h1] at hid
    obtain ⟨x, hxf, hxid⟩ := List.mem_map.mp hid
    obtain ⟨hxq, tx, hxt, hxthr⟩ := h3 x hxf
    have htle : t ≤ tx := h5 x hxf y hyq hxid.symm t hyt tx hxt
    have hxmem : x ∈ cmdWatch sinceMs pages := by
      rw [hcw]
      refine List.mem_filter.mpr ⟨hxf, ?_⟩
      rw [hxt]
      exact decide_eq_true (by omega)
    exact List.mem_map.mpr ⟨x, hxmem, hxid⟩

/-- Witness for C7 on the concrete overlapping-pages fixture with T = 10^6:
the output is exactly the two items newer than T, with distinct ids, and
the duplicated id 2 appears in the output ids. -/
theorem c7_watch_exact_witness :
    cmdWatch 1000000 watchPagesEx
      = [{ id := 1, lastUpdate := some 1200000 }, { id := 2, lastUpdate := some 1130000 }]
    ∧ ((cmdWatch 1000000 watchPagesEx).map WItem.id).Nodup
    ∧ (2 : Nat) ∈ (cmdWatch 1000000 watchPagesEx).map WItem.id :=
  ⟨by decide,
   (c7_watch_exact 1000000 watchPagesEx (by decide) (by decide)).1,
   (c7_watch_exact 1000000 watchPagesEx (by decide) (by decide)).2.2
     { id := 2, lastUpdate := some 1130000 } (by decide) 1130000 rfl (by decide)⟩

theorem stripSlashesRev_replicate (l : Str) :
    ∃ k, List.replicate k '/' ++ stripSlashesRev l = l := by
  induction l with
  | nil => exact ⟨0, rfl⟩
  | cons c rest ih =>
    by_cases h : c = '/' ∧ rest ≠ []
    · obtain ⟨k, hk⟩ := ih
      refine ⟨k + 1, ?_⟩
      simp only [stripSlashesRev, if_pos h]
      rw [List.replicate_succ]
      obtain ⟨hc, -⟩ := h
      subst hc
      rw [List.cons_append, hk]
    · refine ⟨0, ?_⟩
      simp only [stripSlashesRev, if_neg h]
      rfl

theorem stripSlashesRev_head (l : Str) :
    stripSlashesRev l = []
    ∨ ∃ c rest, stripSlashesRev l = c :: rest ∧ (c ≠ '/' ∨ rest = []) := by
  induction l with
  | nil => exact Or.inl rfl
  | cons c rest ih =>
    by_cases h : c = '/' ∧ rest ≠ []
    · simp only [stripSlashesRev, if_pos h]
      exact ih
    · right
      refine ⟨c, rest, by simp only [stripSlashesRev, if_neg h], ?_⟩
      by_cases hc : c = '/'
      · right
        by_contra hr
        exact h ⟨hc, hr⟩
      · exact Or.inl hc

theorem stripTrailingSlashes_spec (p : Str) :
    (∃ k, stripTrailingSlashes p ++ List.replicate k '/' = p)
    ∧ ((stripTrailingSlashes p).getLast? = some '/' → stripTrailingSlashes p = ['/']) := by
  constructor
  · obtain ⟨k, hk⟩ := stripSlashesRev_replicate p.reverse
    refine ⟨k, ?_⟩
    have := congrArg List.reverse hk
    rw [List.reverse_append, List.reverse_replicate, List.reverse_reverse] at this
    exact this
  · intro hlast
    rw [stripTrailingSlashes, List.getLast?_reverse] at hlast
    rcases stripSlashesRev_head p.reverse with hnil | ⟨c, rest, hcons, hprop⟩
    · rw [hnil] at hlast
      exact Option.noConfusion hlast
    · rw [hcons] at hlast
      simp only [List.head?_cons, Option.some_inj] at hlast
      subst hlast
      rcases hprop with hne | hrest
      · exact absurd rfl hne
      · subst hrest
        rw [stripTrailingSlashes, hcons]
        rfl

/-- C10: for a single-URL `exists` invocation with a resolvable token, the
URL sent upstream is the normalized form of the input — scheme forced to
https, fragment removed, every query parameter whose name starts
(case-insensitively) with `utm_` removed (the others kept in order), and
trailing slashes stripped from the path leaving at least `/` — while an
input that is not a valid http/https URL is rejected with `INVALID_ARGS`
(exit 2) before any request is issued. -/
theorem c10_exists_url_normalization (env file : Option Str) (tok : Str)
    (u : UrlParts) (found : Option Nat)
    (htok : requireToken env file = Except.ok tok)
    (hscheme : u.scheme = "http".data ∨ u.scheme = "https".data) :
    (cmdExistsSingleUrl env file (some u) found).result = Except.ok found
    ∧ (cmdExistsSingleUrl env file (some u) found).requests
        = [{ method := Method.get, endpoint := Endpoint.existsUrl, permanentQuery := false,
             tagsBody := none,
             urlQuery := some { scheme := "https".data, host := u.host,
                                path := stripTrailingSlashes u.path,
                                query := u.query.filter
                                  (fun kv => !("utm_".data.isPrefixOf (strToLower kv.1))),
                                fragment := [] } }]
    ∧ (∀ kv ∈ u.query.filter (fun kv => !("utm_".data.isPrefixOf (strToLower kv.1))),
        "utm_".data.isPrefixOf (strToLower kv.1) = false)
    ∧ (∃ k, stripTrailingSlashes u.path ++ List.replicate k '/' = u.path)
    ∧ ((stripTrailingSlashes u.path).getLast? = some '/' →
        stripTrailingSlashes u.path = ['/'])
    ∧ cmdExistsSingleUrl env file none found
        = { result := Except.error invalidArgsErr, requests := [] }
    ∧ (∀ w : UrlParts, w.scheme ≠ "http".data → w.scheme ≠ "https".data →
        cmdExistsSingleUrl env file (some w) found
          = { result := Except.error invalidArgsErr, requests := [] })
    ∧ invalidArgsErr.exit = 2 := by
  have hval : validateUrl (some u) = Except.ok u := by
    rw [validateUrl]
    rw [if_neg]
    rintro ⟨ha, hb⟩
    rcases hscheme with h | h
    · exact ha h
    · exact hb h
  have hnorm : normalizeUrl (some u)
      = Except.ok { scheme := "https".data, host := u.host,
                    path := stripTrailingSlashes u.path,
                    query := u.query.filter
                      (fun kv => !("utm_".data.isPrefixOf (strToLower kv.1))),
                    fragment := [] } := by
    rw [normalizeUrl, hval]
  refine ⟨?_, ?_, ?_, (stripTrailingSlashes_spec u.path).1,
    (stripTrailingSlashes_spec u.path).2, ?_, ?_, rfl⟩
  · rw [cmdExistsSingleUrl, withToken, htok, hnorm]
  · rw [cmdExistsSingleUrl, withToken, htok, hnorm]
  · intro kv hkv
    have hp := (List.mem_filter.mp hkv).2
    simp only [Bool.not_eq_true'] at hp
    exact hp
  · rw [cmdExistsSingleUrl, withToken, htok]
    rfl
  · intro w h1 h2
    have hvalw : validateUrl (some w) = Except.error invalidArgsErr := by
      rw [validateUrl, if_pos ⟨h1, h2⟩]
    rw [cmdExistsSingleUrl, withToken, htok, normalizeUrl, hvalw]

/-- Witness for C10 on a concrete URL with an http scheme, a `utm_source`
parameter, a fragment and a trailing slash: the issued request carries the
https scheme, no fragment, only the non-utm parameter, and the stripped
path. -/
theorem c10_exists_url_normalization_witness :
    (cmdExistsSingleUrl (some "tok".data) none (some urlEx) none).requests
      = [{ method := Method.get, endpoint := Endpoint.existsUrl, permanentQuery := false,
           tagsBody := none,
           urlQuery := some { scheme := "https".data, host := "example.com".data,
                              path := "/a".data, query := [("q".data, "1".data)],
                              fragment := [] } }] := by
  have h := (c10_exists_url_normalization (some "tok".data) none "tok".data urlEx none
    rfl (Or.inl rfl)).2.1
  rw [h]
  decide

end Rain
